import Mathlib

/-
Verification of the roaring-bitmap crate (src/lib.rs).

The Rust source stores a set of 32-bit integers as two parallel vectors: a
sorted vector of 16-bit chunk keys and a vector of per-chunk containers,
where a container is either a sorted vector of 16-bit offsets (`Sparse`) or
a bit set over the offset domain (`Dense`).

Embedding conventions:
* machine integers (`u16`, `u32`, `usize`) become `Nat`; the only arithmetic
  on them is the key/offset split, which is modelled with the source's own
  shift and mask operators;
* the external `bit_set::BitSet` collaborator (a fixed-domain presence set
  with ascending iteration) is modelled by its canonical content, the
  strictly ascending list of its members;
* `Vec` becomes `List`, with `List.insertIdx` / `List.eraseIdx` / `List.set`
  for `Vec::insert` / `Vec::remove` / `IndexMut`;
* a Rust panic (out-of-bounds index) is modelled by returning `none`, so the
  fallible public operations return `Option`.
-/

namespace Roaring

/-- The constant `SPARSE_CHUNK_SIZE_LIMIT` from src/lib.rs. -/
def SPARSE_CHUNK_SIZE_LIMIT : Nat := 4096

/-- Result of Rust's `slice::binary_search`: `found i` when the probed value
sits at index `i`, `notFound i` when it is absent and `i` is the sorted
insertion point. On the sorted, duplicate-free slices maintained by the
bitmap this functional model agrees with the stdlib contract. -/
inductive SearchResult where
  | found (i : Nat)
  | notFound (i : Nat)
deriving DecidableEq, Repr

/-- Functional model of `slice::binary_search` on a sorted slice: scan for
the first element that is not below the probe. -/
def binarySearch : List Nat → Nat → SearchResult
  | [], _ => .notFound 0
  | x :: xs, v =>
    if v < x then .notFound 0
    else if v = x then .found 0
    else
      match binarySearch xs v with
      | .found i => .found (i + 1)
      | .notFound i => .notFound (i + 1)

/-- `BitSet::insert` of the external bit-set collaborator: returns whether
the value was newly added, together with the updated set (kept as its
ascending member list). -/
def bitsetInsert : List Nat → Nat → Bool × List Nat
  | [], v => (true, [v])
  | x :: xs, v =>
    if v < x then (true, v :: x :: xs)
    else if v = x then (false, x :: xs)
    else
      let r := bitsetInsert xs v
      (r.1, x :: r.2)

/-- `BitSet::remove` of the external bit-set collaborator: returns whether
the value was present, together with the updated set. -/
def bitsetRemove : List Nat → Nat → Bool × List Nat
  | [], _ => (false, [])
  | x :: xs, v =>
    if v < x then (false, x :: xs)
    else if v = x then (true, xs)
    else
      let r := bitsetRemove xs v
      (r.1, x :: r.2)

/-- The two-variant `Container` enum from src/lib.rs. -/
inductive Container where
  | Dense (bitset : List Nat)
  | Sparse (vec : List Nat)
deriving DecidableEq, Repr

/-- `Container::from_sparse_chunk`: collect every offset of the sparse vector
into a fresh bit set (`from.iter().collect::<BitSet>()`). -/
def Container.from_sparse_chunk (vec : List Nat) : Container :=
  .Dense (vec.foldl (fun s v => (bitsetInsert s v).2) [])

/-- `Container::from_dense_chunk`: collect the bit set's members, in
ascending iteration order, into a vector. -/
def Container.from_dense_chunk (bitset : List Nat) : Container :=
  .Sparse bitset

/-- `Container::len`. -/
def Container.len : Container → Nat
  | .Dense bitset => bitset.length
  | .Sparse vec => vec.length

/-- `Container::contains`: `Dense` delegates to the bit set's membership
test, `Sparse` binary-searches the vector. -/
def Container.contains : Container → Nat → Bool
  | .Dense bitset, value => decide (value ∈ bitset)
  | .Sparse vec, value =>
    match binarySearch vec value with
    | .found _ => true
    | .notFound _ => false

/-- The free function `key_val_pair`:
`((value >> 16) as u16, (value & ((1 << 16) - 1)) as u16)`. -/
def key_val_pair (value : Nat) : Nat × Nat :=
  (value >>> 16, value &&& (1 <<< 16 - 1))

/-- The top-level `RoaringBitMap` struct: parallel vectors of chunk keys and
containers. -/
structure RoaringBitMap where
  keys : List Nat
  containers : List Container
deriving DecidableEq, Repr

/-- `RoaringBitMap::new`. -/
def RoaringBitMap.new : RoaringBitMap := ⟨[], []⟩

/-- `RoaringBitMap::len`: sum of the container lengths. -/
def RoaringBitMap.len (m : RoaringBitMap) : Nat :=
  (m.containers.map Container.len).sum

/-- `RoaringBitMap::is_empty`. -/
def RoaringBitMap.is_empty (m : RoaringBitMap) : Bool :=
  m.keys.isEmpty

/-- `RoaringBitMap::clear`: both vectors are cleared. -/
def RoaringBitMap.clear (_ : RoaringBitMap) : RoaringBitMap := ⟨[], []⟩

/-- `RoaringBitMap::contains`. `none` models a panic on an out-of-bounds
container index (`self.containers[i]`). -/
def RoaringBitMap.contains (m : RoaringBitMap) (value : Nat) : Option Bool :=
  let key := (key_val_pair value).1
  let val := (key_val_pair value).2
  match binarySearch m.keys key with
  | .found i =>
    match m.containers[i]? with
    | some c => some (c.contains val)
    | none => none
  | .notFound _ => some false

/-- `RoaringBitMap::insert`. `none` models a panic. Note that in the source
the promotion records `new_container = Some((i, ...))` where `i` is the
binding of the INNER `Err(i)` of the offset search (the sorted insertion
position inside the sparse vector), shadowing the outer key index, and the
deferred `self.containers[i] = c` then indexes the container vector with
that inner position, panicking when it is out of bounds. -/
def RoaringBitMap.insert (m : RoaringBitMap) (value : Nat) : Option (Bool × RoaringBitMap) :=
  let key := (key_val_pair value).1
  let val := (key_val_pair value).2
  match binarySearch m.keys key with
  | .found i =>
    match m.containers[i]? with
    | none => none
    | some (.Dense bitset) =>
      let r := bitsetInsert bitset val
      some (r.1, ⟨m.keys, m.containers.set i (.Dense r.2)⟩)
    | some (.Sparse vec) =>
      match binarySearch vec val with
      | .found _ => some (false, m)
      | .notFound j =>
        let vec2 := vec.insertIdx j val
        let m2 : RoaringBitMap := ⟨m.keys, m.containers.set i (.Sparse vec2)⟩
        if vec2.length = SPARSE_CHUNK_SIZE_LIMIT then
          if j < m2.containers.length then
            some (true, ⟨m2.keys, m2.containers.set j (Container.from_sparse_chunk vec2)⟩)
          else none
        else some (true, m2)
  | .notFound i =>
    some (true, ⟨m.keys.insertIdx i key, m.containers.insertIdx i (.Sparse [val])⟩)

/-- `RoaringBitMap::remove`. `none` models a panic. In the sparse branch the
source sets `to_remove = Some(i)` under the INNER `Ok(i)` of the offset
search (shadowing the key index), so the deferred pair deletion
`self.keys.remove(i); self.containers.remove(i)` uses the removed offset's
position inside the sparse vector. The dense branch's deferred replacement
`new_container = Some((i, ...))` uses the outer key index. -/
def RoaringBitMap.remove (m : RoaringBitMap) (value : Nat) : Option (Bool × RoaringBitMap) :=
  let key := (key_val_pair value).1
  let val := (key_val_pair value).2
  match binarySearch m.keys key with
  | .notFound _ => some (false, m)
  | .found i =>
    match m.containers[i]? with
    | none => none
    | some (.Dense bitset) =>
      let r := bitsetRemove bitset val
      let m2 : RoaringBitMap := ⟨m.keys, m.containers.set i (.Dense r.2)⟩
      if r.2.length < SPARSE_CHUNK_SIZE_LIMIT then
        some (r.1, ⟨m2.keys, m2.containers.set i (Container.from_dense_chunk r.2)⟩)
      else some (r.1, m2)
    | some (.Sparse vec) =>
      match binarySearch vec val with
      | .notFound _ => some (false, m)
      | .found j =>
        let vec2 := vec.eraseIdx j
        let m2 : RoaringBitMap := ⟨m.keys, m.containers.set i (.Sparse vec2)⟩
        if vec2.isEmpty then
          some (true, ⟨m2.keys.eraseIdx j, m2.containers.eraseIdx j⟩)
        else some (true, m2)

/-- Run a sequence of `insert` calls, propagating a panic as `none`. -/
def runInserts (m : RoaringBitMap) : List Nat → Option RoaringBitMap
  | [] => some m
  | v :: vs =>
    match m.insert v with
    | some (_, m2) => runInserts m2 vs
    | none => none

/-- States reachable from `RoaringBitMap::new` through the public mutating
interface (a panicking call has no successor state). -/
inductive Reachable : RoaringBitMap → Prop
  | new : Reachable RoaringBitMap.new
  | insert {m : RoaringBitMap} {v : Nat} {b : Bool} {m' : RoaringBitMap} :
      Reachable m → m.insert v = some (b, m') → Reachable m'
  | remove {m : RoaringBitMap} {v : Nat} {b : Bool} {m' : RoaringBitMap} :
      Reachable m → m.remove v = some (b, m') → Reachable m'
  | clear {m : RoaringBitMap} : Reachable m → Reachable m.clear

/-! Basic facts about the binary-search model. -/

theorem binarySearch_found_getElem {l : List Nat} {v i : Nat}
    (h : binarySearch l v = .found i) : l[i]? = some v := by
  induction l generalizing i with
  | nil => simp [binarySearch] at h
  | cons x xs ih =>
    rw [binarySearch] at h
    split at h
    · simp at h
    · split at h
      · rename_i _ hveq
        cases h
        simp [hveq]
      · rcases hbs : binarySearch xs v with j | j <;> rw [hbs] at h
        · cases h
          simpa using ih hbs
        · simp at h

theorem binarySearch_found_mem {l : List Nat} {v i : Nat}
    (h : binarySearch l v = .found i) : v ∈ l := by
  have h2 := binarySearch_found_getElem h
  rcases List.getElem?_eq_some_iff.mp h2 with ⟨hlt, hEq⟩
  exact hEq ▸ List.getElem_mem hlt

theorem binarySearch_found_lt_length {l : List Nat} {v i : Nat}
    (h : binarySearch l v = .found i) : i < l.length := by
  have := binarySearch_found_getElem h
  rcases List.getElem?_eq_some_iff.mp this with ⟨hlt, _⟩
  exact hlt

theorem binarySearch_notFound_le {l : List Nat} {v i : Nat}
    (h : binarySearch l v = .notFound i) : i ≤ l.length := by
  induction l generalizing i with
  | nil =>
    rw [binarySearch] at h
    cases h
    simp
  | cons x xs ih =>
    rw [binarySearch] at h
    split at h
    · cases h
      simp
    · split at h
      · simp at h
      · rcases hbs : binarySearch xs v with j | j <;> rw [hbs] at h
        · simp at h
        · cases h
          simpa using ih hbs

theorem binarySearch_gt_all {l : List Nat} {v : Nat}
    (h : ∀ x ∈ l, x < v) : binarySearch l v = .notFound l.length := by
  induction l with
  | nil => rfl
  | cons x xs ih =>
    have hx : x < v := h x (List.mem_cons_self x xs)
    rw [binarySearch, if_neg (by omega), if_neg (by omega),
      ih (fun y hy => h y (List.mem_cons_of_mem x hy))]
    rfl

theorem binarySearch_notFound_of_not_mem {l : List Nat} {v : Nat}
    (h : v ∉ l) : ∃ j, binarySearch l v = .notFound j := by
  rcases hbs : binarySearch l v with i | i
  · exact absurd (binarySearch_found_mem hbs) h
  · exact ⟨i, rfl⟩

theorem binarySearch_notFound_not_mem {l : List Nat} {v i : Nat}
    (hs : List.Sorted (· < ·) l) (h : binarySearch l v = .notFound i) : v ∉ l := by
  induction l generalizing i with
  | nil => simp
  | cons x xs ih =>
    rcases List.sorted_cons.mp hs with ⟨hall, hxs⟩
    rw [binarySearch] at h
    split at h
    · rename_i hvx
      intro hmem
      rcases List.mem_cons.mp hmem with rfl | hmem
      · omega
      · exact absurd (hall v hmem) (by omega)
    · split at h
      · simp at h
      · rename_i hvx hvx2
        rcases hbs : binarySearch xs v with j | j <;> rw [hbs] at h
        · simp at h
        · intro hmem
          rcases List.mem_cons.mp hmem with rfl | hmem
          · exact hvx2 rfl
          · exact ih hxs hbs hmem

theorem sparse_contains_iff {l : List Nat} {v : Nat} (hs : List.Sorted (· < ·) l) :
    (Container.Sparse l).contains v = true ↔ v ∈ l := by
  rw [Container.contains]
  rcases hbs : binarySearch l v with i | i
  · simp [binarySearch_found_mem hbs]
  · simp [binarySearch_notFound_not_mem hs hbs]

theorem binarySearch_insertIdx_self {l : List Nat} {v i : Nat}
    (h : binarySearch l v = .notFound i) :
    binarySearch (l.insertIdx i v) v = .found i := by
  induction l generalizing i with
  | nil =>
    rw [binarySearch] at h
    cases h
    simp [List.insertIdx_zero, binarySearch]
  | cons x xs ih =>
    rw [binarySearch] at h
    split at h
    · rename_i hvx
      cases h
      rw [List.insertIdx_zero, binarySearch, if_neg (by omega), if_pos rfl]
    · split at h
      · simp at h
      · rename_i hvx hvx2
        rcases hbs : binarySearch xs v with j | j <;> rw [hbs] at h
        · simp at h
        · cases h
          rw [List.insertIdx_succ_cons, binarySearch, if_neg hvx, if_neg hvx2, ih hbs]

theorem binarySearch_insertIdx_sorted {l : List Nat} {v i : Nat}
    (hs : List.Sorted (· < ·) l) (h : binarySearch l v = .notFound i) :
    List.Sorted (· < ·) (l.insertIdx i v) := by
  induction l generalizing i with
  | nil =>
    rw [binarySearch] at h
    cases h
    simp
  | cons x xs ih =>
    rcases List.sorted_cons.mp hs with ⟨hall, hxs⟩
    rw [binarySearch] at h
    split at h
    · rename_i hvx
      cases h
      rw [List.insertIdx_zero]
      exact List.sorted_cons.mpr ⟨fun b hb => by
        rcases List.mem_cons.mp hb with rfl | hb
        · exact hvx
        · exact lt_trans hvx (hall b hb), hs⟩
    · split at h
      · simp at h
      · rename_i hvx hvx2
        rcases hbs : binarySearch xs v with j | j <;> rw [hbs] at h
        · simp at h
        · cases h
          rw [List.insertIdx_succ_cons]
          refine List.sorted_cons.mpr ⟨fun b hb => ?_, ih hxs hbs⟩
          rcases (List.mem_insertIdx (binarySearch_notFound_le hbs)).mp hb with rfl | hb
          · omega
          · exact hall b hb

theorem getElem?_insertIdx_self {α : Type} {l : List α} {a : α} {i : Nat}
    (h : i ≤ l.length) : (l.insertIdx i a)[i]? = some a := by
  induction l generalizing i with
  | nil =>
    have hi : i = 0 := by simpa using h
    subst hi
    rfl
  | cons x xs ih =>
    cases i with
    | zero => rfl
    | succ i =>
      rw [List.insertIdx_succ_cons]
      simpa using ih (by simpa using h)

/-! Facts about the bit-set collaborator model. -/

theorem bitsetInsert_mem {l : List Nat} {v x : Nat} :
    x ∈ (bitsetInsert l v).2 ↔ x = v ∨ x ∈ l := by
  induction l with
  | nil => simp [bitsetInsert]
  | cons y ys ih =>
    rw [bitsetInsert]
    split
    · simp [List.mem_cons]
    · split
      · rename_i hveq
        subst hveq
        simp [List.mem_cons]
      · show x ∈ y :: (bitsetInsert ys v).2 ↔ _
        simp only [List.mem_cons, ih]
        tauto

theorem bitsetInsert_sorted {l : List Nat} {v : Nat} (hs : List.Sorted (· < ·) l) :
    List.Sorted (· < ·) (bitsetInsert l v).2 := by
  induction l with
  | nil => simp [bitsetInsert]
  | cons y ys ih =>
    rcases List.sorted_cons.mp hs with ⟨hall, hys⟩
    rw [bitsetInsert]
    split
    · rename_i hvy
      refine List.sorted_cons.mpr ⟨fun b hb => ?_, hs⟩
      rcases List.mem_cons.mp hb with rfl | hb
      · exact hvy
      · exact lt_trans hvy (hall b hb)
    · split
      · exact hs
      · rename_i hvy hvy2
        show List.Sorted (· < ·) (y :: (bitsetInsert ys v).2)
        refine List.sorted_cons.mpr ⟨fun b hb => ?_, ih hys⟩
        rcases bitsetInsert_mem.mp hb with rfl | hb
        · omega
        · exact hall b hb

theorem bitsetInsert_fst {l : List Nat} {v : Nat} (hs : List.Sorted (· < ·) l) :
    (bitsetInsert l v).1 = true ↔ v ∉ l := by
  induction l with
  | nil => simp [bitsetInsert]
  | cons y ys ih =>
    rcases List.sorted_cons.mp hs with ⟨hall, hys⟩
    rw [bitsetInsert]
    split
    · rename_i hvy
      simp only [true_iff]
      intro hmem
      rcases List.mem_cons.mp hmem with rfl | hmem
      · omega
      · exact absurd (hall v hmem) (by omega)
    · split
      · rename_i hveq
        subst hveq
        simp [List.mem_cons]
      · rename_i hvy hvy2
        show (bitsetInsert ys v).1 = true ↔ _
        rw [ih hys]
        simp only [List.mem_cons]
        tauto

theorem length_le_bitsetInsert {l : List Nat} {v : Nat} :
    l.length ≤ (bitsetInsert l v).2.length := by
  induction l with
  | nil => simp [bitsetInsert]
  | cons y ys ih =>
    rw [bitsetInsert]
    split
    · simp
    · split
      · simp
      · show ys.length + 1 ≤ (y :: (bitsetInsert ys v).2).length
        simpa using ih

theorem bitsetRemove_sub {l : List Nat} {v x : Nat} (h : x ∈ (bitsetRemove l v).2) :
    x ∈ l := by
  induction l with
  | nil => simp [bitsetRemove] at h
  | cons y ys ih =>
    rw [bitsetRemove] at h
    split at h
    · exact h
    · split at h
      · exact List.mem_cons_of_mem y h
      · replace h : x ∈ y :: (bitsetRemove ys v).2 := h
        rcases List.mem_cons.mp h with rfl | h
        · exact List.mem_cons_self _ _
        · exact List.mem_cons_of_mem y (ih h)

theorem bitsetRemove_sorted {l : List Nat} {v : Nat} (hs : List.Sorted (· < ·) l) :
    List.Sorted (· < ·) (bitsetRemove l v).2 := by
  induction l with
  | nil => simp [bitsetRemove]
  | cons y ys ih =>
    rcases List.sorted_cons.mp hs with ⟨hall, hys⟩
    rw [bitsetRemove]
    split
    · exact hs
    · split
      · exact hys
      · show List.Sorted (· < ·) (y :: (bitsetRemove ys v).2)
        exact List.sorted_cons.mpr ⟨fun b hb => hall b (bitsetRemove_sub hb), ih hys⟩

theorem bitsetRemove_fst {l : List Nat} {v : Nat} (hs : List.Sorted (· < ·) l) :
    (bitsetRemove l v).1 = true ↔ v ∈ l := by
  induction l with
  | nil => simp [bitsetRemove]
  | cons y ys ih =>
    rcases List.sorted_cons.mp hs with ⟨hall, hys⟩
    rw [bitsetRemove]
    split
    · rename_i hvy
      constructor
      · intro hEq
        simp at hEq
      · intro hmem
        exfalso
        rcases List.mem_cons.mp hmem with rfl | hmem
        · omega
        · exact absurd (hall v hmem) (by omega)
    · split
      · rename_i hveq
        subst hveq
        simp [List.mem_cons]
      · rename_i hvy hvy2
        show (bitsetRemove ys v).1 = true ↔ _
        rw [ih hys]
        simp only [List.mem_cons]
        tauto

theorem bitsetRemove_not_mem {l : List Nat} {v : Nat} (hs : List.Sorted (· < ·) l) :
    v ∉ (bitsetRemove l v).2 := by
  induction l with
  | nil => simp [bitsetRemove]
  | cons y ys ih =>
    rcases List.sorted_cons.mp hs with ⟨hall, hys⟩
    rw [bitsetRemove]
    split
    · rename_i hvy
      intro hmem
      rcases List.mem_cons.mp hmem with rfl | hmem
      · omega
      · exact absurd (hall v hmem) (by omega)
    · split
      · rename_i hveq
        subst hveq
        intro hmem
        exact absurd (hall v hmem) (by omega)
      · rename_i hvy hvy2
        show v ∉ y :: (bitsetRemove ys v).2
        intro hmem
        rcases List.mem_cons.mp hmem with rfl | hmem
        · exact hvy2 rfl
        · exact ih hys hmem

theorem bitsetRemove_of_not_mem {l : List Nat} {v : Nat} (hs : List.Sorted (· < ·) l)
    (h : v ∉ l) : bitsetRemove l v = (false, l) := by
  induction l with
  | nil => rfl
  | cons y ys ih =>
    rcases List.sorted_cons.mp hs with ⟨hall, hys⟩
    have hvy2 : v ≠ y := fun hEq => h (hEq ▸ List.mem_cons_self y ys)
    by_cases hvy : v < y
    · rw [bitsetRemove, if_pos hvy]
    · rw [bitsetRemove, if_neg hvy, if_neg hvy2]
      show ((bitsetRemove ys v).1, y :: (bitsetRemove ys v).2) = (false, y :: ys)
      rw [ih hys fun hmem => h (List.mem_cons_of_mem y hmem)]

/-! The conversion constructors on sorted input. -/

theorem bitsetInsert_append {l : List Nat} {v : Nat} (h : ∀ y ∈ l, y < v) :
    (bitsetInsert l v).2 = l ++ [v] := by
  induction l with
  | nil => rfl
  | cons y ys ih =>
    have hy : y < v := h y (List.mem_cons_self y ys)
    rw [bitsetInsert, if_neg (by omega), if_neg (by omega)]
    show y :: (bitsetInsert ys v).2 = y :: (ys ++ [v])
    rw [ih fun z hz => h z (List.mem_cons_of_mem y hz)]

theorem foldl_bitsetInsert {l : List Nat} :
    ∀ {acc : List Nat}, List.Sorted (· < ·) (acc ++ l) →
      l.foldl (fun s v => (bitsetInsert s v).2) acc = acc ++ l := by
  induction l with
  | nil => simp
  | cons x xs ih =>
    intro acc hs
    rw [List.foldl_cons]
    have hx : ∀ y ∈ acc, y < x := by
      intro y hy
      rcases List.pairwise_append.mp hs with ⟨_, _, hcross⟩
      exact hcross y hy x (List.mem_cons_self x xs)
    have hassoc : (acc ++ [x]) ++ xs = acc ++ (x :: xs) := by simp
    rw [bitsetInsert_append hx, ih (by rw [hassoc]; exact hs), hassoc]

theorem from_sparse_chunk_eq {l : List Nat} (hs : List.Sorted (· < ·) l) :
    Container.from_sparse_chunk l = .Dense l := by
  rw [Container.from_sparse_chunk, foldl_bitsetInsert (by simpa using hs)]
  simp

theorem set_of_getElem?_eq {α : Type} {l : List α} {i : Nat} {a : α}
    (h : l[i]? = some a) : l.set i a = l := by
  induction l generalizing i with
  | nil => simp at h
  | cons x xs ih =>
    cases i with
    | zero =>
      simp only [List.getElem?_cons_zero, Option.some.injEq] at h
      simp [h]
    | succ i =>
      simp only [List.getElem?_cons_succ] at h
      simp [ih h]

/-! The structural invariant maintained by the reachable states. -/

/-- Well-formedness of one container: its content is strictly ascending, and
a Dense container carries at least `SPARSE_CHUNK_SIZE_LIMIT` members. -/
def ContainerInv : Container → Prop
  | .Dense bitset => List.Sorted (· < ·) bitset ∧ SPARSE_CHUNK_SIZE_LIMIT ≤ bitset.length
  | .Sparse vec => List.Sorted (· < ·) vec

/-- The structural invariant of a bitmap state: sorted keys, parallel vectors
of equal length, well-formed containers. -/
structure Inv (m : RoaringBitMap) : Prop where
  keys_sorted : List.Sorted (· < ·) m.keys
  len_eq : m.keys.length = m.containers.length
  cont : ∀ c ∈ m.containers, ContainerInv c

theorem inv_new : Inv RoaringBitMap.new :=
  ⟨List.sorted_nil, rfl, by simp [RoaringBitMap.new]⟩

theorem contains_found {ks : List Nat} {cs : List Container} {v i : Nat} {c : Container}
    (hsearch : binarySearch ks (key_val_pair v).1 = .found i)
    (hci : cs[i]? = some c) :
    (RoaringBitMap.mk ks cs).contains v = some (c.contains (key_val_pair v).2) := by
  simp only [RoaringBitMap.contains, hsearch, hci]

theorem contains_notFound {ks : List Nat} {cs : List Container} {v i : Nat}
    (hsearch : binarySearch ks (key_val_pair v).1 = .notFound i) :
    (RoaringBitMap.mk ks cs).contains v = some false := by
  simp only [RoaringBitMap.contains, hsearch]

/-- Full characterization of a completing `insert` call on a well-formed
state: the invariant is preserved, the returned Boolean says whether the
value was absent, and a true return implies subsequent membership. -/
theorem insert_spec {m : RoaringBitMap} {v : Nat} {b : Bool} {m' : RoaringBitMap}
    (hm : Inv m) (h : m.insert v = some (b, m')) :
    Inv m' ∧ (b = true ↔ m.contains v = some false) ∧
      (b = true → m'.contains v = some true) := by
  obtain ⟨ks, cs⟩ := m
  obtain ⟨hks, hlen, hcont⟩ := hm
  simp only at hks hlen hcont
  simp only [RoaringBitMap.insert] at h
  rcases hsearch : binarySearch ks (key_val_pair v).1 with i | i
  · -- key present at index i
    simp only [hsearch] at h
    rcases hci : cs[i]? with _ | c
    · simp [hci] at h
    have hilt : i < cs.length := by
      rcases List.getElem?_eq_some_iff.mp hci with ⟨hlt, _⟩
      exact hlt
    have hmemc : c ∈ cs := by
      rcases List.getElem?_eq_some_iff.mp hci with ⟨hlt, hEq⟩
      exact hEq ▸ List.getElem_mem hlt
    rcases c with bs | vec
    · -- Dense container
      simp only [hci] at h
      obtain ⟨hsortD, hbigD⟩ : ContainerInv (.Dense bs) := hcont _ hmemc
      simp only [Option.some.injEq, Prod.mk.injEq] at h
      obtain ⟨hb, hm'⟩ := h
      subst hb
      subst hm'
      refine ⟨⟨hks, by simp [hlen], ?_⟩, ?_, ?_⟩
      · intro c hc
        rcases List.mem_or_eq_of_mem_set hc with hc | rfl
        · exact hcont _ hc
        · exact ⟨bitsetInsert_sorted hsortD, le_trans hbigD length_le_bitsetInsert⟩
      · rw [contains_found hsearch hci]
        simp only [Container.contains, Option.some.injEq, decide_eq_false_iff_not]
        exact bitsetInsert_fst hsortD
      · intro _
        have hci2 : (cs.set i
            (.Dense (bitsetInsert bs (key_val_pair v).2).2))[i]? =
            some (.Dense (bitsetInsert bs (key_val_pair v).2).2) :=
          List.getElem?_set_self hilt
        rw [contains_found hsearch hci2]
        simp only [Container.contains, Option.some.injEq, decide_eq_true_eq]
        exact bitsetInsert_mem.mpr (Or.inl rfl)
    · -- Sparse container
      simp only [hci] at h
      have hsortv : List.Sorted (· < ·) vec := hcont _ hmemc
      rcases hvs : binarySearch vec (key_val_pair v).2 with j | j
      · -- offset already present: no-op returning false
        simp only [hvs] at h
        simp only [Option.some.injEq, Prod.mk.injEq] at h
        obtain ⟨hb, hm'⟩ := h
        subst hb
        subst hm'
        refine ⟨⟨hks, hlen, hcont⟩, ?_, ?_⟩
        · rw [contains_found hsearch hci]
          simp [Container.contains, hvs]
        · intro hb
          simp at hb
      · -- offset absent: sorted insertion, possibly promotion
        simp only [hvs] at h
        have hjle : j ≤ vec.length := binarySearch_notFound_le hvs
        have hsortv2 : List.Sorted (· < ·) (vec.insertIdx j (key_val_pair v).2) :=
          binarySearch_insertIdx_sorted hsortv hvs
        have hfound2 : binarySearch (vec.insertIdx j (key_val_pair v).2)
            (key_val_pair v).2 = .found j := binarySearch_insertIdx_self hvs
        split at h
        · rename_i hlim
          split at h
          · -- promotion, with the buggy inner index in bounds
            rename_i hjlt
            simp only [Option.some.injEq, Prod.mk.injEq] at h
            obtain ⟨hb, hm'⟩ := h
            subst hb
            subst hm'
            refine ⟨⟨hks, by simp [hlen], ?_⟩, ?_, ?_⟩
            · intro c hc
              rcases List.mem_or_eq_of_mem_set hc with hc | rfl
              · rcases List.mem_or_eq_of_mem_set hc with hc | rfl
                · exact hcont _ hc
                · exact hsortv2
              · rw [from_sparse_chunk_eq hsortv2]
                exact ⟨hsortv2, le_of_eq hlim.symm⟩
            · rw [contains_found hsearch hci]
              simp [Container.contains, hvs]
            · intro _
              by_cases hij : j = i
              · subst hij
                have hci2 : ((cs.set j
                    (.Sparse (vec.insertIdx j (key_val_pair v).2))).set j
                    (Container.from_sparse_chunk (vec.insertIdx j (key_val_pair v).2)))[j]? =
                    some (Container.from_sparse_chunk (vec.insertIdx j (key_val_pair v).2)) :=
                  List.getElem?_set_self hjlt
                rw [contains_found hsearch hci2, from_sparse_chunk_eq hsortv2]
                simp only [Container.contains, Option.some.injEq, decide_eq_true_eq]
                exact (List.mem_insertIdx hjle).mpr (Or.inl rfl)
              · have hci2 : ((cs.set i
                    (.Sparse (vec.insertIdx j (key_val_pair v).2))).set j
                    (Container.from_sparse_chunk (vec.insertIdx j (key_val_pair v).2)))[i]? =
                    some (.Sparse (vec.insertIdx j (key_val_pair v).2)) := by
                  rw [List.getElem?_set_ne hij, List.getElem?_set_self hilt]
                rw [contains_found hsearch hci2]
                simp [Container.contains, hfound2]
          · simp at h
        · -- plain sorted insertion, no promotion
          rename_i hlim
          simp only [Option.some.injEq, Prod.mk.injEq] at h
          obtain ⟨hb, hm'⟩ := h
          subst hb
          subst hm'
          refine ⟨⟨hks, by simp [hlen], ?_⟩, ?_, ?_⟩
          · intro c hc
            rcases List.mem_or_eq_of_mem_set hc with hc | rfl
            · exact hcont _ hc
            · exact hsortv2
          · rw [contains_found hsearch hci]
            simp [Container.contains, hvs]
          · intro _
            have hci2 : (cs.set i
                (.Sparse (vec.insertIdx j (key_val_pair v).2)))[i]? =
                some (.Sparse (vec.insertIdx j (key_val_pair v).2)) :=
              List.getElem?_set_self hilt
            rw [contains_found hsearch hci2]
            simp [Container.contains, hfound2]
  · -- key absent: fresh singleton Sparse container
    simp only [hsearch] at h
    simp only [Option.some.injEq, Prod.mk.injEq] at h
    obtain ⟨hb, hm'⟩ := h
    subst hb
    subst hm'
    have hile : i ≤ ks.length := binarySearch_notFound_le hsearch
    refine ⟨⟨binarySearch_insertIdx_sorted hks hsearch, ?_, ?_⟩, ?_, ?_⟩
    · rw [List.length_insertIdx _ _ hile, List.length_insertIdx _ _ (hlen ▸ hile), hlen]
    · intro c hc
      rcases (List.mem_insertIdx (hlen ▸ hile)).mp hc with rfl | hc
      · show List.Sorted (· < ·) [(key_val_pair v).2]
        simp
      · exact hcont _ hc
    · rw [contains_notFound hsearch]
      simp
    · intro _
      have hf : binarySearch (ks.insertIdx i (key_val_pair v).1)
          (key_val_pair v).1 = .found i := binarySearch_insertIdx_self hsearch
      have hci2 : (cs.insertIdx i (.Sparse [(key_val_pair v).2]))[i]? =
          some (.Sparse [(key_val_pair v).2]) := getElem?_insertIdx_self (hlen ▸ hile)
      rw [contains_found hf hci2]
      simp [Container.contains, binarySearch]

theorem binarySearch_cons_found_succ {x : Nat} {xs : List Nat} {v i : Nat}
    (h : binarySearch (x :: xs) v = .found (i + 1)) : binarySearch xs v = .found i := by
  rw [binarySearch] at h
  split at h
  · simp at h
  · split at h
    · simp at h
    · rcases hbs : binarySearch xs v with j | j <;> rw [hbs] at h
      · cases h
        rfl
      · simp at h

theorem not_mem_eraseIdx_of_sorted {l : List Nat} {j v : Nat}
    (hs : List.Sorted (· < ·) l) (hj : l[j]? = some v) : v ∉ l.eraseIdx j := by
  induction l generalizing j with
  | nil => simp at hj
  | cons x xs ih =>
    rcases List.sorted_cons.mp hs with ⟨hall, hxs⟩
    cases j with
    | zero =>
      simp only [List.getElem?_cons_zero, Option.some.injEq] at hj
      rw [List.eraseIdx_cons_zero, ← hj]
      intro hmem
      exact absurd (hall x hmem) (lt_irrefl x)
    | succ j =>
      simp only [List.getElem?_cons_succ] at hj
      rw [List.eraseIdx_cons_succ]
      intro hmem
      rcases List.mem_cons.mp hmem with rfl | hmem
      · have hvin : v ∈ xs := by
          rcases List.getElem?_eq_some_iff.mp hj with ⟨hlt, hEq⟩
          exact hEq ▸ List.getElem_mem hlt
        exact absurd (hall v hvin) (lt_irrefl v)
      · exact ih hxs hj hmem

/-- Full characterization of a completing `remove` call on a well-formed
state: the invariant is preserved, the returned Boolean says whether the
value was present, a true return implies subsequent absence, and a false
return leaves the state untouched. -/
theorem remove_spec {m : RoaringBitMap} {v : Nat} {b : Bool} {m' : RoaringBitMap}
    (hm : Inv m) (h : m.remove v = some (b, m')) :
    Inv m' ∧ (b = true ↔ m.contains v = some true) ∧
      (b = true → m'.contains v = some false) ∧ (b = false → m' = m) := by
  obtain ⟨ks, cs⟩ := m
  obtain ⟨hks, hlen, hcont⟩ := hm
  simp only at hks hlen hcont
  simp only [RoaringBitMap.remove] at h
  rcases hsearch : binarySearch ks (key_val_pair v).1 with i | i
  · -- key present at index i
    simp only [hsearch] at h
    rcases hci : cs[i]? with _ | c
    · simp [hci] at h
    have hilt : i < cs.length := by
      rcases List.getElem?_eq_some_iff.mp hci with ⟨hlt, _⟩
      exact hlt
    have hmemc : c ∈ cs := by
      rcases List.getElem?_eq_some_iff.mp hci with ⟨hlt, hEq⟩
      exact hEq ▸ List.getElem_mem hlt
    rcases c with bs | vec
    · -- Dense container
      simp only [hci] at h
      obtain ⟨hsortD, hbigD⟩ : ContainerInv (.Dense bs) := hcont _ hmemc
      have hsortD2 : List.Sorted (· < ·) (bitsetRemove bs (key_val_pair v).2).2 :=
        bitsetRemove_sorted hsortD
      have hfst : (bitsetRemove bs (key_val_pair v).2).1 = true ↔
          (key_val_pair v).2 ∈ bs := bitsetRemove_fst hsortD
      have hiff : (bitsetRemove bs (key_val_pair v).2).1 = true ↔
          (RoaringBitMap.mk ks cs).contains v = some true := by
        rw [contains_found hsearch hci]
        simp only [Container.contains, Option.some.injEq, decide_eq_true_eq]
        exact hfst
      have hnotmem : (bitsetRemove bs (key_val_pair v).2).1 = false →
          bitsetRemove bs (key_val_pair v).2 = (false, bs) := by
        intro hbf
        refine bitsetRemove_of_not_mem hsortD fun hmem2 => ?_
        exact Bool.noConfusion ((hfst.mpr hmem2).symm.trans hbf)
      split at h
      · -- demotion fires
        rename_i hdem
        simp only [Container.from_dense_chunk, List.set_set] at h
        simp only [Option.some.injEq, Prod.mk.injEq] at h
        obtain ⟨hb, hm'⟩ := h
        subst hb
        subst hm'
        refine ⟨⟨hks, by simp [hlen], ?_⟩, hiff, ?_, ?_⟩
        · intro c hc
          rcases List.mem_or_eq_of_mem_set hc with hc | rfl
          · exact hcont _ hc
          · exact hsortD2
        · intro _
          have hci2 : (cs.set i (.Sparse (bitsetRemove bs (key_val_pair v).2).2))[i]? =
              some (.Sparse (bitsetRemove bs (key_val_pair v).2).2) :=
            List.getElem?_set_self hilt
          rw [contains_found hsearch hci2]
          obtain ⟨j2, hnf⟩ :=
            binarySearch_notFound_of_not_mem
              (@bitsetRemove_not_mem bs (key_val_pair v).2 hsortD)
          simp [Container.contains, hnf]
        · intro hbf
          exfalso
          rw [hnotmem hbf] at hdem
          exact absurd hdem (not_lt.mpr hbigD)
      · -- no demotion
        rename_i hdem
        simp only [Option.some.injEq, Prod.mk.injEq] at h
        obtain ⟨hb, hm'⟩ := h
        subst hb
        subst hm'
        refine ⟨⟨hks, by simp [hlen], ?_⟩, hiff, ?_, ?_⟩
        · intro c hc
          rcases List.mem_or_eq_of_mem_set hc with hc | rfl
          · exact hcont _ hc
          · exact ⟨hsortD2, Nat.le_of_not_lt hdem⟩
        · intro _
          have hci2 : (cs.set i (.Dense (bitsetRemove bs (key_val_pair v).2).2))[i]? =
              some (.Dense (bitsetRemove bs (key_val_pair v).2).2) :=
            List.getElem?_set_self hilt
          rw [contains_found hsearch hci2]
          simp only [Container.contains, Option.some.injEq, decide_eq_false_iff_not]
          exact bitsetRemove_not_mem hsortD
        · intro hbf
          rw [hnotmem hbf]
          show (⟨ks, cs.set i (.Dense bs)⟩ : RoaringBitMap) = ⟨ks, cs⟩
          rw [set_of_getElem?_eq hci]
    · -- Sparse container
      simp only [hci] at h
      have hsortv : List.Sorted (· < ·) vec := hcont _ hmemc
      rcases hvs : binarySearch vec (key_val_pair v).2 with j | j
      · -- offset present at inner index j
        simp only [hvs] at h
        have hjval : vec[j]? = some (key_val_pair v).2 := binarySearch_found_getElem hvs
        have hjlt : j < vec.length := binarySearch_found_lt_length hvs
        have hiff : (true : Bool) = true ↔
            (RoaringBitMap.mk ks cs).contains v = some true := by
          rw [contains_found hsearch hci]
          simp [Container.contains, hvs]
        have hnomem : (key_val_pair v).2 ∉ vec.eraseIdx j :=
          not_mem_eraseIdx_of_sorted hsortv hjval
        split at h
        · -- sparse vector emptied: pair deletion at the INNER index
          rename_i hemp
          have hnil : vec.eraseIdx j = [] := by simpa using hemp
          have hlen1 : vec.length = 1 := by
            have := List.length_eraseIdx_of_lt hjlt
            rw [hnil] at this
            simp at this
            omega
          have hj0 : j = 0 := by omega
          subst hj0
          simp only [Option.some.injEq, Prod.mk.injEq] at h
          obtain ⟨hb, hm'⟩ := h
          subst hb
          subst hm'
          have hknonnil : i < ks.length := binarySearch_found_lt_length hsearch
          refine ⟨⟨?_, ?_, ?_⟩, hiff, ?_, ?_⟩
          · exact List.Pairwise.sublist (List.eraseIdx_sublist ks 0) hks
          · rw [List.length_eraseIdx_of_lt (by omega),
              List.length_eraseIdx_of_lt (by simp only [List.length_set]; omega)]
            simp [hlen]
          · intro c hc
            rcases List.mem_or_eq_of_mem_set (List.mem_of_mem_eraseIdx hc) with hc2 | rfl
            · exact hcont _ hc2
            · exact List.Pairwise.sublist (List.eraseIdx_sublist vec 0) hsortv
          · intro _
            rcases ks with _ | ⟨k0, kt⟩
            · simp at hknonnil
            rcases cs with _ | ⟨c0, ct⟩
            · simp at hilt
            rw [List.eraseIdx_cons_zero]
            rcases i with _ | i2
            · -- the emptied chunk was the first pair: correct deletion
              have hk0 : k0 = (key_val_pair v).1 := by
                have := binarySearch_found_getElem hsearch
                simpa using this
              have hnotin : (key_val_pair v).1 ∉ kt := by
                rcases List.sorted_cons.mp hks with ⟨hall, _⟩
                rw [← hk0]
                intro hmem
                exact absurd (hall k0 hmem) (lt_irrefl k0)
              obtain ⟨j2, hnf⟩ := binarySearch_notFound_of_not_mem hnotin
              rw [contains_notFound hnf]
            · -- the emptied chunk was NOT the first pair: the wrong pair is
              -- deleted, but the probed value's own chunk ends up holding an
              -- empty sparse vector, so its membership still reads false
              have hf2 : binarySearch kt (key_val_pair v).1 = .found i2 :=
                binarySearch_cons_found_succ hsearch
              rw [List.set_cons_succ, List.eraseIdx_cons_zero]
              have hci2 : (ct.set i2 (.Sparse (vec.eraseIdx 0)))[i2]? =
                  some (.Sparse (vec.eraseIdx 0)) := by
                refine List.getElem?_set_self ?_
                simpa using hilt
              rw [contains_found hf2 hci2, hnil]
              simp [Container.contains, binarySearch]
          · intro hbf
            exact absurd hbf (by simp)
        · -- sparse vector still populated
          rename_i hemp
          simp only [Option.some.injEq, Prod.mk.injEq] at h
          obtain ⟨hb, hm'⟩ := h
          subst hb
          subst hm'
          refine ⟨⟨hks, by simp [hlen], ?_⟩, hiff, ?_, ?_⟩
          · intro c hc
            rcases List.mem_or_eq_of_mem_set hc with hc | rfl
            · exact hcont _ hc
            · exact List.Pairwise.sublist (List.eraseIdx_sublist vec j) hsortv
          · intro _
            have hci2 : (cs.set i (.Sparse (vec.eraseIdx j)))[i]? =
                some (.Sparse (vec.eraseIdx j)) := List.getElem?_set_self hilt
            rw [contains_found hsearch hci2]
            obtain ⟨j2, hnf⟩ := binarySearch_notFound_of_not_mem hnomem
            simp [Container.contains, hnf]
          · intro hbf
            exact absurd hbf (by simp)
      · -- offset absent
        simp only [hvs] at h
        simp only [Option.some.injEq, Prod.mk.injEq] at h
        obtain ⟨hb, hm'⟩ := h
        subst hb
        subst hm'
        refine ⟨⟨hks, hlen, hcont⟩, ?_, ?_, fun _ => rfl⟩
        · rw [contains_found hsearch hci]
          simp [Container.contains, hvs]
        · intro hbf
          exact absurd hbf (by simp)
  · -- key absent
    simp only [hsearch] at h
    simp only [Option.some.injEq, Prod.mk.injEq] at h
    obtain ⟨hb, hm'⟩ := h
    subst hb
    subst hm'
    refine ⟨⟨hks, hlen, hcont⟩, ?_, ?_, fun _ => rfl⟩
    · rw [contains_notFound hsearch]
      simp
    · intro hbf
      exact absurd hbf (by simp)

/-- `remove` never panics on a well-formed state. -/
theorem remove_total {m : RoaringBitMap} (hm : Inv m) (v : Nat) :
    ∃ b m', m.remove v = some (b, m') := by
  obtain ⟨ks, cs⟩ := m
  obtain ⟨hks, hlen, hcont⟩ := hm
  simp only at hlen
  simp only [RoaringBitMap.remove]
  rcases hsearch : binarySearch ks (key_val_pair v).1 with i | i
  · have hilt : i < cs.length := hlen ▸ binarySearch_found_lt_length hsearch
    rcases hci : cs[i]? with _ | c
    · rw [List.getElem?_eq_none_iff] at hci
      omega
    rcases c with bs | vec
    · simp only [hsearch, hci]
      by_cases hdem : (bitsetRemove bs (key_val_pair v).2).2.length < SPARSE_CHUNK_SIZE_LIMIT
      · simp only [if_pos hdem]
        exact ⟨_, _, rfl⟩
      · simp only [if_neg hdem]
        exact ⟨_, _, rfl⟩
    · simp only [hsearch, hci]
      rcases hvs : binarySearch vec (key_val_pair v).2 with j | j <;> simp only [hvs]
      · by_cases hemp : (vec.eraseIdx j).isEmpty
        · simp only [if_pos hemp]
          exact ⟨_, _, rfl⟩
        · simp only [if_neg hemp]
          exact ⟨_, _, rfl⟩
      · exact ⟨_, _, rfl⟩
  · simp only [hsearch]
    exact ⟨_, _, rfl⟩

theorem inv_clear (m : RoaringBitMap) : Inv m.clear :=
  ⟨List.sorted_nil, rfl, by simp [RoaringBitMap.clear]⟩

/-- Every reachable state satisfies the structural invariant. -/
theorem reachable_inv {m : RoaringBitMap} (h : Reachable m) : Inv m := by
  induction h with
  | new => exact inv_new
  | insert _ hstep ih => exact (insert_spec ih hstep).1
  | remove _ hstep ih => exact (remove_spec ih hstep).1
  | clear _ _ => exact inv_clear _

/-! Arithmetic facts about the key/offset split. -/

theorem key_val_pair_eq (value : Nat) :
    key_val_pair value = (value / 65536, value % 65536) := by
  have h1 : value >>> 16 = value / 65536 := by
    rw [Nat.shiftRight_eq_div_pow]
  have h2 : value &&& (1 <<< 16 - 1) = value % 65536 := by
    have he : (1 <<< 16 - 1 : Nat) = 2 ^ 16 - 1 := by decide
    rw [he, Nat.and_pow_two_sub_one_eq_mod]
  rw [key_val_pair, h1, h2]

theorem key_val_pair_low {k : Nat} (hk : k < 65536) : key_val_pair k = (0, k) := by
  simp only [key_val_pair_eq, Prod.mk.injEq]
  omega

theorem key_val_pair_chunk1 {k : Nat} (hk : k < 65536) :
    key_val_pair (65536 + k) = (1, k) := by
  simp only [key_val_pair_eq, Prod.mk.injEq]
  omega

/-! Concrete families of states used to exercise the promotion and
pair-deletion paths at the 4096 threshold. -/

theorem insertIdx_at_length {α : Type} {l : List α} {n : Nat} {x : α} (h : l.length = n) :
    l.insertIdx n x = l ++ [x] := by
  subst h
  exact List.insertIdx_length_self l x

theorem binarySearch_range_self {k : Nat} :
    binarySearch (List.range k) k = .notFound k := by
  have h3 : ∀ x ∈ List.range k, x < k := fun x hx => List.mem_range.mp hx
  simpa using binarySearch_gt_all h3

theorem binarySearch_range'_one {k v : Nat} (hv : k < v) :
    binarySearch (List.range' 1 k) v = .notFound k := by
  have h3 : ∀ x ∈ List.range' 1 k, x < v := by
    intro x hx
    rw [List.mem_range'_1] at hx
    omega
  simpa using binarySearch_gt_all h3

/-- Single-chunk ramp: keys `[0]`, chunk 0 sparsely holding offsets `0..k-1`. -/
def soloState (k : Nat) : RoaringBitMap := ⟨[0], [.Sparse (List.range k)]⟩

/-- Two-chunk ramp: chunk 0 holds offset 0, chunk 1 sparsely holds offsets `1..k`. -/
def rampState (k : Nat) : RoaringBitMap :=
  ⟨[0, 1], [.Sparse [0], .Sparse (List.range' 1 k)]⟩

/-- The state produced by the misdirected promotion out of `rampState 4095`:
chunk 0's container was overwritten with the Dense promotion of chunk 1's
offsets, while chunk 1 keeps a full 4096-entry sparse vector. -/
def bugState : RoaringBitMap :=
  ⟨[0, 1], [.Dense (List.range 4096), .Sparse (List.range 4096)]⟩

/-- The state after one more insertion into `bugState`'s chunk 1: its sparse
vector grows to 4097 entries without promotion. -/
def bugState2 : RoaringBitMap :=
  ⟨[0, 1], [.Dense (List.range 4096), .Sparse (List.range 4097)]⟩

/-- The state after removing value 0 from `bugState`: chunk 0's Dense
container is demoted to its Sparse form. -/
def demoState : RoaringBitMap :=
  ⟨[0, 1], [.Sparse (List.range' 1 4095), .Sparse (List.range 4096)]⟩

theorem solo_step {k : Nat} (h1 : 1 ≤ k) (h2 : k ≤ 4094) :
    (soloState k).insert k = some (true, soloState (k + 1)) := by
  have hk : k < 65536 := by omega
  have hb0 : binarySearch [0] (0 : Nat) = .found 0 := rfl
  have hins : (List.range k).insertIdx k k = List.range (k + 1) := by
    rw [insertIdx_at_length (List.length_range k), ← List.range_succ]
  have hne : ¬(k + 1 = SPARSE_CHUNK_SIZE_LIMIT) := by
    rw [SPARSE_CHUNK_SIZE_LIMIT]
    omega
  rw [RoaringBitMap.insert]
  simp [soloState, key_val_pair_low hk, hb0, binarySearch_range_self, hins, hne]

theorem solo_promote : (soloState 4095).insert 4095 = none := by
  have hk : (4095 : Nat) < 65536 := by omega
  have hb0 : binarySearch [0] (0 : Nat) = .found 0 := rfl
  have hins : (List.range 4095).insertIdx 4095 4095 = List.range 4096 := by
    rw [insertIdx_at_length (List.length_range 4095), ← List.range_succ]
  rw [RoaringBitMap.insert]
  simp [soloState, key_val_pair_low hk, hb0, binarySearch_range_self, hins,
    SPARSE_CHUNK_SIZE_LIMIT]

theorem ramp_step {k : Nat} (h1 : 1 ≤ k) (h2 : k ≤ 4094) :
    (rampState k).insert (65536 + (k + 1)) = some (true, rampState (k + 1)) := by
  have hk : k + 1 < 65536 := by omega
  have hkv : key_val_pair (65536 + (k + 1)) = (1, k + 1) := key_val_pair_chunk1 hk
  have hb1 : binarySearch [0, 1] (1 : Nat) = .found 1 := rfl
  have hins : (List.range' 1 k).insertIdx k (k + 1) = List.range' 1 (k + 1) := by
    rw [insertIdx_at_length (by simp), List.range'_1_concat]
    simp [Nat.add_comm]
  have hne : ¬(k + 1 = SPARSE_CHUNK_SIZE_LIMIT) := by
    rw [SPARSE_CHUNK_SIZE_LIMIT]
    omega
  rw [RoaringBitMap.insert]
  simp [rampState, hkv, hb1, binarySearch_range'_one (Nat.lt_succ_self k), hins, hne]

theorem ramp_promote : (rampState 4095).insert 65536 = some (true, bugState) := by
  have hkv : key_val_pair 65536 = (1, 0) := by
    rw [key_val_pair_eq]
  have hb1 : binarySearch [0, 1] (1 : Nat) = .found 1 := rfl
  have hbs : binarySearch (List.range' 1 4095) 0 = .notFound 0 := by
    rw [show (4095 : Nat) = 4094 + 1 from rfl, List.range'_succ, binarySearch]
    decide
  have hins : (List.range' 1 4095).insertIdx 0 0 = List.range 4096 := by
    rw [List.insertIdx_zero, List.range_eq_range']
    exact (List.range'_succ 0 4095 1).symm
  have hfrom : Container.from_sparse_chunk (List.range 4096) = .Dense (List.range 4096) :=
    from_sparse_chunk_eq (List.sorted_lt_range 4096)
  have hlim : (4096 : Nat) = SPARSE_CHUNK_SIZE_LIMIT := rfl
  rw [RoaringBitMap.insert]
  simp [rampState, bugState, hkv, hb1, hbs, hins, hfrom, ← hlim]

theorem bug_insert_grows : bugState.insert 69632 = some (true, bugState2) := by
  have hkv : key_val_pair 69632 = (1, 4096) := by
    rw [key_val_pair_eq]
  have hb1 : binarySearch [0, 1] (1 : Nat) = .found 1 := rfl
  have hins : (List.range 4096).insertIdx 4096 4096 = List.range 4097 := by
    rw [insertIdx_at_length (List.length_range 4096), ← List.range_succ]
  have hne : ¬((4097 : Nat) = SPARSE_CHUNK_SIZE_LIMIT) := by
    rw [SPARSE_CHUNK_SIZE_LIMIT]
    omega
  rw [RoaringBitMap.insert]
  simp [bugState, bugState2, hkv, hb1, binarySearch_range_self, hins, hne]

theorem bitsetRemove_range_zero :
    bitsetRemove (List.range 4096) 0 = (true, List.range' 1 4095) := by
  rw [show List.range 4096 = 0 :: List.range' 1 4095 from by
    rw [List.range_eq_range']
    exact List.range'_succ 0 4095 1, bitsetRemove]
  simp

theorem bug_remove_zero : bugState.remove 0 = some (true, demoState) := by
  have hkv : key_val_pair 0 = (0, 0) := rfl
  have hb0 : binarySearch [0, 1] (0 : Nat) = .found 0 := rfl
  have hlt : (4095 : Nat) < SPARSE_CHUNK_SIZE_LIMIT := by
    rw [SPARSE_CHUNK_SIZE_LIMIT]
    omega
  rw [RoaringBitMap.remove]
  simp [bugState, demoState, hkv, hb0, bitsetRemove_range_zero, hlt,
    Container.from_dense_chunk]

theorem reachable_soloState : ∀ k, 1 ≤ k → k ≤ 4095 → Reachable (soloState k) := by
  intro k h1
  induction k, h1 using Nat.le_induction with
  | base =>
    intro _
    have s1 : RoaringBitMap.new.insert 0 = some (true, soloState 1) := by decide
    exact Reachable.insert Reachable.new s1
  | succ n hn ih =>
    intro h2
    exact Reachable.insert (ih (by omega)) (solo_step hn (by omega))

theorem reachable_rampState : ∀ k, 1 ≤ k → k ≤ 4095 → Reachable (rampState k) := by
  intro k h1
  induction k, h1 using Nat.le_induction with
  | base =>
    intro _
    have s1 : RoaringBitMap.new.insert 0 = some (true, ⟨[0], [.Sparse [0]]⟩) := by decide
    have s2 : (RoaringBitMap.mk [0] [.Sparse [0]]).insert 65537 =
        some (true, rampState 1) := by decide
    exact Reachable.insert (Reachable.insert Reachable.new s1) s2
  | succ n hn ih =>
    intro h2
    exact Reachable.insert (ih (by omega)) (ramp_step hn (by omega))

theorem reachable_bugState : Reachable bugState :=
  Reachable.insert (reachable_rampState 4095 (by omega) (by omega)) ramp_promote

theorem runInserts_append (m : RoaringBitMap) (l1 l2 : List Nat) :
    runInserts m (l1 ++ l2) =
      match runInserts m l1 with
      | some m2 => runInserts m2 l2
      | none => none := by
  induction l1 generalizing m with
  | nil => simp [runInserts]
  | cons x xs ih =>
    rcases hx : m.insert x with _ | p <;>
      simp [runInserts, List.cons_append, hx, ih]

theorem runInserts_solo : ∀ k, 1 ≤ k → k ≤ 4095 →
    runInserts RoaringBitMap.new (List.range k) = some (soloState k) := by
  intro k h1
  induction k, h1 using Nat.le_induction with
  | base =>
    intro _
    decide
  | succ n hn ih =>
    intro h2
    rw [List.range_succ, runInserts_append, ih (by omega)]
    simp [runInserts, solo_step hn (by omega)]

/-! The claim theorems. -/

/-- C1: evaluation of the pair-deletion path at a concrete failing input.
Starting from `new`, inserting 0 and 65536 and then removing 65536 empties
chunk key 1's sparse vector; the code then deletes the key/container pair at
the removed offset's position inside the sparse vector (index 0), so chunk
key 0's pair is destroyed instead of chunk key 1's: afterwards `contains 0`
is false (it was true just before), chunk key 1 survives with an empty
sparse container, and the claimed behavior (chunk key 1's pair removed, all
other chunks untouched) does not hold. -/
theorem remove_pair_deletion_misindexed :
    RoaringBitMap.new.insert 0 = some (true, ⟨[0], [.Sparse [0]]⟩) ∧
    (RoaringBitMap.mk [0] [.Sparse [0]]).insert 65536 =
      some (true, ⟨[0, 1], [.Sparse [0], .Sparse [0]]⟩) ∧
    (RoaringBitMap.mk [0, 1] [.Sparse [0], .Sparse [0]]).contains 0 = some true ∧
    (RoaringBitMap.mk [0, 1] [.Sparse [0], .Sparse [0]]).remove 65536 =
      some (true, ⟨[1], [.Sparse []]⟩) ∧
    (RoaringBitMap.mk [1] [.Sparse []]).contains 0 = some false := by
  refine ⟨by decide, by decide, by decide, by decide, by decide⟩

/-- C2: the insertion that makes chunk 1's sparse vector reach 4096 entries
replaces chunk 0's container (index 0 = the inner insertion position) with
the Dense promotion of chunk 1's offsets, instead of replacing chunk 1's
container; the reachable pre-state `rampState 4095` refutes the claim:
chunk 1's container stays Sparse at 4096 entries, and `contains 1` flips
from false to true across the call although 1 was never inserted. -/
theorem insert_promotion_misindexed :
    Reachable (rampState 4095) ∧
    (rampState 4095).insert 65536 = some (true, bugState) ∧
    (rampState 4095).contains 1 = some false ∧
    bugState.contains 1 = some true ∧
    bugState.containers[1]? = some (.Sparse (List.range 4096)) := by
  refine ⟨reachable_rampState 4095 (by omega) (by omega), ramp_promote, ?_, ?_, rfl⟩
  · have hkv : key_val_pair 1 = (0, 1) := key_val_pair_low (by omega)
    have hb0 : binarySearch [0, 1] (0 : Nat) = .found 0 := rfl
    have hc1 : (Container.Sparse [0]).contains 1 = false := by decide
    rw [RoaringBitMap.contains]
    simp [rampState, hkv, hb0, hc1]
  · have hkv : key_val_pair 1 = (0, 1) := key_val_pair_low (by omega)
    have hb0 : binarySearch [0, 1] (0 : Nat) = .found 0 := rfl
    have hmem : (1 : Nat) ∈ List.range 4096 := List.mem_range.mpr (by omega)
    rw [RoaringBitMap.contains]
    simp [bugState, hkv, hb0, Container.contains, hmem]

/-- C3: the claimed 4096 bound on Sparse containers fails on the code: the
reachable state `bugState` keeps a Sparse container with exactly 4096
entries across an operation boundary (the promotion replaced the wrong
container), and one further insertion into that chunk grows it to 4097
entries without promotion. -/
theorem sparse_limit_violated :
    Reachable bugState ∧
    bugState.containers[1]? = some (.Sparse (List.range 4096)) ∧
    (List.range 4096).length = 4096 ∧
    bugState.insert 69632 = some (true, bugState2) ∧
    bugState2.containers[1]? = some (.Sparse (List.range 4097)) ∧
    (List.range 4097).length = 4097 :=
  ⟨reachable_bugState, rfl, by simp, bug_insert_grows, rfl, by simp⟩

/-- C4: the public operations are not total: inserting the 4096 values
0,...,4095 in ascending order makes the promoting insertion index the
container vector at the inner position 4095 while it holds one container,
an out-of-bounds write (a Rust panic, modelled as `none`). -/
theorem insert_promotion_out_of_bounds :
    runInserts RoaringBitMap.new (List.range 4096) = none := by
  rw [show (4096 : Nat) = 4095 + 1 from rfl, List.range_succ, runInserts_append,
    runInserts_solo 4095 (by omega) (by omega)]
  simp [runInserts, solo_promote]

/-- C5: for every reachable bitmap state and u32 value, a completing
`insert(v)` call returns true iff v was not already present, and
immediately after a call returning true, `contains(v)` returns true. -/
theorem insert_true_iff_not_mem (m : RoaringBitMap) (v : Nat) (b : Bool)
    (m' : RoaringBitMap) (hr : Reachable m) (_hv : v < 2 ^ 32)
    (h : m.insert v = some (b, m')) :
    (b = true ↔ m.contains v = some false) ∧
      (b = true → m'.contains v = some true) := by
  obtain ⟨_, h2, h3⟩ := insert_spec (reachable_inv hr) h
  exact ⟨h2, h3⟩

theorem insert_true_iff_not_mem_witness :
    ((true : Bool) = true ↔ RoaringBitMap.new.contains 0 = some false) ∧
    ((true : Bool) = true →
      (RoaringBitMap.mk [0] [.Sparse [0]]).contains 0 = some true) :=
  insert_true_iff_not_mem RoaringBitMap.new 0 true ⟨[0], [.Sparse [0]]⟩
    Reachable.new (by norm_num) (by decide)

/-- C6: for every reachable bitmap state and u32 value, a completing
`remove(v)` call returns true iff v was present; after a true return
`contains(v)` is false; after a false return `len()` is unchanged. -/
theorem remove_true_iff_mem (m : RoaringBitMap) (v : Nat) (b : Bool)
    (m' : RoaringBitMap) (hr : Reachable m) (_hv : v < 2 ^ 32)
    (h : m.remove v = some (b, m')) :
    (b = true ↔ m.contains v = some true) ∧
      (b = true → m'.contains v = some false) ∧
      (b = false → m'.len = m.len) := by
  obtain ⟨_, h2, h3, h4⟩ := remove_spec (reachable_inv hr) h
  exact ⟨h2, h3, fun hb => by rw [h4 hb]⟩

theorem remove_true_iff_mem_witness :
    ((false : Bool) = true ↔ RoaringBitMap.new.contains 0 = some true) ∧
    ((false : Bool) = true → RoaringBitMap.new.contains 0 = some false) ∧
    ((false : Bool) = false → RoaringBitMap.new.len = RoaringBitMap.new.len) :=
  remove_true_iff_mem RoaringBitMap.new 0 false RoaringBitMap.new
    Reachable.new (by norm_num) (by decide)

/-- C7: on a reachable state, whenever a `remove` call on a Dense container
leaves the presence set with fewer than 4096 members, the container at v's
key position (and nothing else) is replaced by its demoted Sparse form,
whose vector is sorted, duplicate-free and membership-equivalent to the
post-removal Dense set, and `contains` of every value is the same as it
would be on the un-demoted Dense state. -/
theorem remove_demotion_spec (m : RoaringBitMap) (v i : Nat) (bs : List Nat)
    (b : Bool) (m' : RoaringBitMap) (hr : Reachable m) (_hv : v < 2 ^ 32)
    (hk : binarySearch m.keys (key_val_pair v).1 = .found i)
    (hc : m.containers[i]? = some (.Dense bs))
    (hlt : (bitsetRemove bs (key_val_pair v).2).2.length < SPARSE_CHUNK_SIZE_LIMIT)
    (h : m.remove v = some (b, m')) :
    m'.keys = m.keys ∧
    m'.containers = m.containers.set i
      (Container.from_dense_chunk (bitsetRemove bs (key_val_pair v).2).2) ∧
    (∃ vec, Container.from_dense_chunk (bitsetRemove bs (key_val_pair v).2).2 =
        .Sparse vec ∧ List.Sorted (· < ·) vec ∧ vec.Nodup ∧
        (∀ x, x ∈ vec ↔ x ∈ (bitsetRemove bs (key_val_pair v).2).2)) ∧
    (∀ w, m'.contains w =
      (RoaringBitMap.mk m.keys
        (m.containers.set i (.Dense (bitsetRemove bs (key_val_pair v).2).2))).contains w) := by
  obtain ⟨ks, cs⟩ := m
  obtain ⟨hks, hlen, hcont⟩ := reachable_inv hr
  simp only at hks hlen hcont hk hc
  have hilt : i < cs.length := by
    rcases List.getElem?_eq_some_iff.mp hc with ⟨hlt2, _⟩
    exact hlt2
  have hmemc : Container.Dense bs ∈ cs := by
    rcases List.getElem?_eq_some_iff.mp hc with ⟨hlt2, hEq⟩
    exact hEq ▸ List.getElem_mem hlt2
  obtain ⟨hsortD, _⟩ : ContainerInv (.Dense bs) := hcont _ hmemc
  have hsort2 : List.Sorted (· < ·) (bitsetRemove bs (key_val_pair v).2).2 :=
    bitsetRemove_sorted hsortD
  simp only [RoaringBitMap.remove, hk, hc, if_pos hlt, Container.from_dense_chunk,
    List.set_set, Option.some.injEq, Prod.mk.injEq] at h
  obtain ⟨hb, hm'⟩ := h
  subst hm'
  refine ⟨rfl, by simp [Container.from_dense_chunk], ?_, ?_⟩
  · refine ⟨(bitsetRemove bs (key_val_pair v).2).2, rfl, hsort2, ?_, fun x => Iff.rfl⟩
    exact List.Pairwise.imp (fun hxy => Nat.ne_of_lt hxy) hsort2
  · intro w
    have hcc : (Container.Sparse (bitsetRemove bs (key_val_pair v).2).2).contains
        (key_val_pair w).2 =
        (Container.Dense (bitsetRemove bs (key_val_pair v).2).2).contains
        (key_val_pair w).2 := by
      by_cases hmem : (key_val_pair w).2 ∈ (bitsetRemove bs (key_val_pair v).2).2
      · rw [(sparse_contains_iff hsort2).mpr hmem]
        simp [Container.contains, hmem]
      · obtain ⟨j2, hnf⟩ := binarySearch_notFound_of_not_mem hmem
        simp [Container.contains, hnf, hmem]
    rcases hw : binarySearch ks (key_val_pair w).1 with i2 | i2
    · by_cases hii : i2 = i
      · subst hii
        rw [contains_found hw (List.getElem?_set_self hilt),
          contains_found hw (List.getElem?_set_self hilt), hcc]
      · rcases hc2 : cs[i2]? with _ | c2
        · have hnone : ∀ c0 : Container, (cs.set i c0)[i2]? = none := by
            intro c0
            rw [List.getElem?_set_ne (fun hEq => hii hEq.symm), hc2]
          simp only [RoaringBitMap.contains, hw, hnone]
        · rw [contains_found hw
              (by rw [List.getElem?_set_ne (fun hEq => hii hEq.symm)]; exact hc2),
            contains_found hw
              (by rw [List.getElem?_set_ne (fun hEq => hii hEq.symm)]; exact hc2)]
    · rw [contains_notFound hw, contains_notFound hw]

theorem remove_demotion_spec_witness :
    demoState.keys = bugState.keys ∧
    demoState.containers = bugState.containers.set 0
      (Container.from_dense_chunk (bitsetRemove (List.range 4096) (key_val_pair 0).2).2) ∧
    (∃ vec, Container.from_dense_chunk (bitsetRemove (List.range 4096) (key_val_pair 0).2).2 =
        .Sparse vec ∧ List.Sorted (· < ·) vec ∧ vec.Nodup ∧
        (∀ x, x ∈ vec ↔ x ∈ (bitsetRemove (List.range 4096) (key_val_pair 0).2).2)) ∧
    (∀ w, demoState.contains w =
      (RoaringBitMap.mk bugState.keys
        (bugState.containers.set 0
          (.Dense (bitsetRemove (List.range 4096) (key_val_pair 0).2).2))).contains w) :=
  remove_demotion_spec bugState 0 0 (List.range 4096) true demoState
    reachable_bugState (by norm_num) (by decide) rfl
    (by rw [show (key_val_pair 0).2 = 0 from rfl, bitsetRemove_range_zero]
        simp [SPARSE_CHUNK_SIZE_LIMIT])
    bug_remove_zero

/-- C8: in every reachable state, every Dense container holds at least
`SPARSE_CHUNK_SIZE_LIMIT` (4096) members. -/
theorem dense_lower_bound (m : RoaringBitMap) (hr : Reachable m) :
    ∀ c ∈ m.containers, ∀ bitset, c = Container.Dense bitset →
      SPARSE_CHUNK_SIZE_LIMIT ≤ bitset.length := by
  intro c hc bitset hEq
  have h := (reachable_inv hr).cont c hc
  rw [hEq] at h
  exact h.2

theorem dense_lower_bound_witness :
    SPARSE_CHUNK_SIZE_LIMIT ≤ (List.range 4096).length :=
  dense_lower_bound bugState reachable_bugState (Container.Dense (List.range 4096))
    (by simp [bugState]) (List.range 4096) rfl

/-- C9: on a reachable state, removing a value that is not contained returns
false and leaves the entire state (keys, containers and their
representation variants) exactly unchanged. -/
theorem remove_absent_noop (m : RoaringBitMap) (v : Nat) (hr : Reachable m)
    (_hv : v < 2 ^ 32) (hc : m.contains v = some false) :
    m.remove v = some (false, m) := by
  have hinv := reachable_inv hr
  obtain ⟨b, m', h⟩ := remove_total hinv v
  obtain ⟨_, h2, _, h4⟩ := remove_spec hinv h
  have hb : b = false := by
    cases b
    · rfl
    · have hcontra := h2.mp rfl
      rw [hc] at hcontra
      simp at hcontra
  subst hb
  rw [h4 rfl] at h
  exact h

theorem remove_absent_noop_witness :
    RoaringBitMap.new.remove 5 = some (false, RoaringBitMap.new) :=
  remove_absent_noop RoaringBitMap.new 5 Reachable.new (by norm_num) (by decide)

/-- C10: the key/offset split is lossless on the u32 domain: recombining the
pair of `key_val_pair v` as `(key << 16) | offset` yields v again, and
`key_val_pair` is injective. -/
theorem key_val_pair_lossless (v w : Nat) (_hv : v < 2 ^ 32) (_hw : w < 2 ^ 32) :
    ((key_val_pair v).1 <<< 16 ||| (key_val_pair v).2) = v ∧
    (key_val_pair v = key_val_pair w → v = w) := by
  have hrec : ∀ u : Nat, ((key_val_pair u).1 <<< 16 ||| (key_val_pair u).2) = u := by
    intro u
    rw [key_val_pair_eq]
    show (u / 65536) <<< 16 ||| (u % 65536) = u
    have hp : (2 : Nat) ^ 16 = 65536 := by norm_num
    rw [Nat.shiftLeft_eq, Nat.mul_comm,
      ← Nat.mul_add_lt_is_or (by rw [hp]; omega) (u / 65536), hp]
    omega
  refine ⟨hrec v, fun hEq => ?_⟩
  have h1 := hrec v
  rw [hEq] at h1
  exact h1.symm.trans (hrec w)

theorem key_val_pair_lossless_witness :
    ((key_val_pair 94).1 <<< 16 ||| (key_val_pair 94).2) = 94 ∧
    (key_val_pair 94 = key_val_pair 402 → 94 = 402) :=
  key_val_pair_lossless 94 402 (by norm_num) (by norm_num)

end Roaring
